import Mathlib

set_option maxHeartbeats 1000000

namespace Woke

/-! # Shallow embedding of the woke IR contract/inheritance layer

This development embeds `src/woke/ast/ir/declaration/contract_definition.py`
and `src/woke/ast/ir/yul/switch.py`.  The reference resolver itself
(`woke.ast.ir.reference_resolver`) is not part of the sources; its callback
protocol (post-process queue drained once in registration order, per-file
destroy queues, `resolve_node` lookup) is modelled from the spec where needed
and noted at the definitions concerned. -/

/-- Contract kinds from `woke.ast.enums.ContractKind`.
Modelled from the spec: the enum module is not among the sources; the spec
fixes the kind set to `contract`, `interface`, `library`. -/
inductive ContractKind where
| contract
| interface
| library
deriving DecidableEq, Repr

/-- Raw documentation attached to a `SolcContractDefinition`: a structured
documentation node, a plain string, or a raw variant outside the expected set
(the source dispatches on exactly the first two and raises `TypeError`
otherwise). -/
inductive SolcDocumentation where
| structured (id : Nat)
| text (s : List Char)
| unrecognized (id : Nat)
deriving DecidableEq, Repr

/-- A raw member of `contract.nodes`, as dispatched by the `isinstance` chain
in `ContractDefinition.__init__`.  The nine expected variants carry the id of
the child node they would construct; `unrecognized` stands for a raw variant
outside the expected fixed set. -/
inductive SolcContractBodyNode where
| enumDef (id : Nat)
| errorDef (id : Nat)
| eventDef (id : Nat)
| functionDef (id : Nat)
| modifierDef (id : Nat)
| structDef (id : Nat)
| udvtDef (id : Nat)
| usingForDir (id : Nat)
| varDecl (id : Nat)
| unrecognized (id : Nat)
deriving DecidableEq, Repr

/-- The raw `SolcContractDefinition` input of `ContractDefinition.__init__`.
Child nodes are represented by their ids; `baseContracts` holds, per
inheritance specifier, the id its `base_name.referenced_declaration` resolves
to. -/
structure SolcContractDef where
  abstractFlag : Bool
  kind : ContractKind
  fullyImplemented : Option Bool
  linearizedBaseContracts : List Nat
  documentation : Option SolcDocumentation
  baseContracts : List Nat
  nodes : List SolcContractBodyNode
deriving DecidableEq, Repr

/-- The state of a constructed `ContractDefinition` node.  Owned children are
represented by their ids; `childContracts` is the mutable reverse-index set
(a Python `set`, modelled as a duplicate-free list). -/
structure ContractState where
  abstractFlag : Bool
  kind : ContractKind
  fullyImplemented : Option Bool
  linearizedBaseContracts : List Nat
  documentation : Option (Sum Nat (List Char))
  baseIds : List Nat
  enums : List Nat
  errors : List Nat
  events : List Nat
  functions : List Nat
  modifiers : List Nat
  structs : List Nat
  userDefinedValueTypes : List Nat
  usingForDirectives : List Nat
  declaredVariables : List Nat
  childContracts : List Nat
deriving DecidableEq, Repr

/-- Errors raised during node construction: the `TypeError` of the
documentation dispatch in `ContractDefinition.__init__`, and the
`assert False` of the scrutinee dispatch in `Switch.__init__`. -/
inductive ConstructionError where
| unknownDocumentationType
| unexpectedSwitchExpression
deriving DecidableEq, Repr

/-- The documentation dispatch of `ContractDefinition.__init__`: `None` is
kept, a structured node is wrapped, a plain string is stored as-is, and any
other variant raises `TypeError`. -/
def buildDocumentation : Option SolcDocumentation →
    Except ConstructionError (Option (Sum Nat (List Char)))
| none => Except.ok none
| some (SolcDocumentation.structured i) => Except.ok (some (Sum.inl i))
| some (SolcDocumentation.text s) => Except.ok (some (Sum.inr s))
| some (SolcDocumentation.unrecognized _) =>
    Except.error ConstructionError.unknownDocumentationType

/-- Accumulator for the body-member loop of `ContractDefinition.__init__`. -/
structure BodyLists where
  enums : List Nat
  errors : List Nat
  events : List Nat
  functions : List Nat
  modifiers : List Nat
  structs : List Nat
  userDefinedValueTypes : List Nat
  usingForDirectives : List Nat
  declaredVariables : List Nat
deriving DecidableEq, Repr

/-- One step of the body-member loop over `contract.nodes`.  The source's
`isinstance` chain has no `else` branch, so a raw variant outside the nine
expected kinds leaves the accumulator unchanged. -/
def processBodyNode (acc : BodyLists) (n : SolcContractBodyNode) : BodyLists :=
  match n with
  | SolcContractBodyNode.enumDef i => { acc with enums := acc.enums ++ [i] }
  | SolcContractBodyNode.errorDef i => { acc with errors := acc.errors ++ [i] }
  | SolcContractBodyNode.eventDef i => { acc with events := acc.events ++ [i] }
  | SolcContractBodyNode.functionDef i => { acc with functions := acc.functions ++ [i] }
  | SolcContractBodyNode.modifierDef i => { acc with modifiers := acc.modifiers ++ [i] }
  | SolcContractBodyNode.structDef i => { acc with structs := acc.structs ++ [i] }
  | SolcContractBodyNode.udvtDef i =>
      { acc with userDefinedValueTypes := acc.userDefinedValueTypes ++ [i] }
  | SolcContractBodyNode.usingForDir i =>
      { acc with usingForDirectives := acc.usingForDirectives ++ [i] }
  | SolcContractBodyNode.varDecl i =>
      { acc with declaredVariables := acc.declaredVariables ++ [i] }
  | SolcContractBodyNode.unrecognized _ => acc

/-- The body-member loop of `ContractDefinition.__init__`. -/
def buildBody (nodes : List SolcContractBodyNode) : BodyLists :=
  nodes.foldl processBodyNode ⟨[], [], [], [], [], [], [], [], []⟩

/-- `ContractDefinition.__init__`: scalar fields are copied, the documentation
dispatch may raise, inheritance specifiers are recorded in order, the child
set starts empty, and the body-member loop fills the nine owned-children
lists. -/
def buildContract (c : SolcContractDef) : Except ConstructionError ContractState :=
  match buildDocumentation c.documentation with
  | Except.error e => Except.error e
  | Except.ok doc =>
    let b := buildBody c.nodes
    Except.ok
      { abstractFlag := c.abstractFlag
        kind := c.kind
        fullyImplemented := c.fullyImplemented
        linearizedBaseContracts := c.linearizedBaseContracts
        documentation := doc
        baseIds := c.baseContracts
        enums := b.enums
        errors := b.errors
        events := b.events
        functions := b.functions
        modifiers := b.modifiers
        structs := b.structs
        userDefinedValueTypes := b.userDefinedValueTypes
        usingForDirectives := b.usingForDirectives
        declaredVariables := b.declaredVariables
        childContracts := [] }

/-- Raw scrutinee of a `YulSwitch`, as dispatched in `Switch.__init__`:
the three expected variants plus a raw variant outside the expected set. -/
inductive YulSwitchExprNode where
| funCall (id : Nat)
| ident (id : Nat)
| lit (id : Nat)
| unrecognized (id : Nat)
deriving DecidableEq, Repr

/-- Constructed scrutinee of a `Switch` node. -/
inductive SwitchExprIR where
| funCall (id : Nat)
| ident (id : Nat)
| lit (id : Nat)
deriving DecidableEq, Repr

/-- Raw `YulSwitch` input of `Switch.__init__` (cases by id). -/
structure YulSwitchNode where
  expression : YulSwitchExprNode
  cases : List Nat
deriving DecidableEq, Repr

/-- A constructed `Switch` node. -/
structure SwitchState where
  expression : SwitchExprIR
  cases : List Nat
deriving DecidableEq, Repr

/-- `Switch.__init__`: the scrutinee dispatch covers `YulFunctionCall`,
`YulIdentifier` and `YulLiteral` and hits `assert False` on anything else;
the case list is built afterwards. -/
def buildSwitch (s : YulSwitchNode) : Except ConstructionError SwitchState :=
  match s.expression with
  | YulSwitchExprNode.funCall i => Except.ok ⟨SwitchExprIR.funCall i, s.cases⟩
  | YulSwitchExprNode.ident i => Except.ok ⟨SwitchExprIR.ident i, s.cases⟩
  | YulSwitchExprNode.lit i => Except.ok ⟨SwitchExprIR.lit i, s.cases⟩
  | YulSwitchExprNode.unrecognized _ =>
      Except.error ConstructionError.unexpectedSwitchExpression

/-! ## The resolver-mediated mutable store

The object graph of one compilation unit is modelled as an id-keyed map
from AST node id to an optional contract state.  Modelled from the spec where the resolver is
concerned: `resolve_node` is lookup in this map, `run_post_process` drains
the post-process queue (one callback per contract, in registration order),
and `invalidate` runs the registered destroy callbacks.  Destroy callbacks
hold direct object references, so they keep acting on entries of the store
even after the referenced contract was itself destroyed. -/

abbrev Store := Nat → Option ContractState

/-- The `child_contracts` set of the contract registered at id `i`
(empty when no contract is registered there). -/
def childSet (st : Store) (i : Nat) : List Nat :=
  ((st i).map ContractState.childContracts).getD []

/-- The resolved base-contract ids of the contract registered at id `i`. -/
def baseIdsAt (st : Store) (i : Nat) : List Nat :=
  ((st i).map ContractState.baseIds).getD []

/-- Replace the entry at id `b`. -/
def updStore (st : Store) (b : Nat) (c : ContractState) : Store :=
  fun i => if i = b then some c else st i

/-- Python `set.add`: idempotent insertion into the child set. -/
def addUnique (l : List Nat) (x : Nat) : List Nat :=
  if x ∈ l then l else x :: l

/-- `contract.__child_contracts.add(self)` on the entry at id `b`
(identity when no contract is registered at `b`). -/
def addChildTo (st : Store) (b x : Nat) : Store :=
  match st b with
  | none => st
  | some bc => updStore st b { bc with childContracts := addUnique bc.childContracts x }

/-- The loop body of `ContractDefinition.__post_process` for the contract
with id `x`: walk the inheritance specifiers' resolved target ids, resolve
each (failure to resolve is the fatal dangling-reference error), add `x` to
the resolved base's child set, and record the base for the destroy callback.
Returns the updated store and the recorded base list. -/
def ppGo (x : Nat) : List Nat → Store → Option (Store × List Nat)
| [], st => some (st, [])
| b :: bs, st =>
  match st b with
  | none => none
  | some _ =>
    match ppGo x bs (addChildTo st b x) with
    | none => none
    | some (st', r) => some (st', b :: r)

/-- `run_post_process`: fire the queued callbacks in registration order
(`order` lists the contracts' ids in construction order).  Each callback runs
`ppGo` for its contract and registers a destroy callback carrying the
recorded base list; the destroy registrations are returned alongside the
final store. -/
def runPP : List Nat → Store → Option (Store × List (Nat × List Nat))
| [], st => some (st, [])
| i :: is, st =>
  match st i with
  | none => none
  | some c =>
    match ppGo i c.baseIds st with
    | none => none
    | some (st', r) =>
      match runPP is st' with
      | none => none
      | some (st'', cbs) => some (st'', (i, r) :: cbs)

/-- `ContractDefinition.__destroy` for the contract with id `x`: walk the
recorded base list and run `base.__child_contracts.remove(x)` on each.
Python's `set.remove` raises `KeyError` when the element is absent, which
aborts the invalidation (`none`). -/
def destroyGo (x : Nat) : List Nat → Store → Option Store
| [], st => some st
| b :: bs, st =>
  match st b with
  | none => none
  | some bc =>
    if x ∈ bc.childContracts then
      destroyGo x bs (updStore st b { bc with childContracts := bc.childContracts.erase x })
    else none

/-- Look up the destroy callback registered for contract id `d`. -/
def lookupCb : List (Nat × List Nat) → Nat → Option (List Nat)
| [], _ => none
| (i, r) :: rest, d => if i = d then some r else lookupCb rest d

/-- A sequence of invalidations, at contract granularity: each id in `ds`
has its registered destroy callback run in turn (a file invalidation runs
the destroy callbacks of that file's contracts in registration order, so any
sequence of file invalidations is such a sequence). -/
def runInvalidations (cbs : List (Nat × List Nat)) : List Nat → Store → Option Store
| [], st => some st
| d :: ds, st =>
  match lookupCb cbs d with
  | none => none
  | some r =>
    match destroyGo d r st with
    | none => none
    | some st' => runInvalidations cbs ds st'

/-- The resolution loop of `linearized_base_contracts`: resolve each id in
order, appending the resolved contract; a failed resolution is the fatal
dangling-reference error. -/
def resolveAllIds (st : Store) : List Nat → Option (List ContractState)
| [] => some []
| i :: is =>
  match st i with
  | none => none
  | some c =>
    match resolveAllIds st is with
    | none => none
    | some r => some (c :: r)

/-- `ContractDefinition.linearized_base_contracts`: resolve each id of the
precomputed linearization through the resolver (`resolve_node`). -/
def linearizedAccessor (st : Store) (c : ContractState) : Option (List ContractState) :=
  resolveAllIds st c.linearizedBaseContracts

/-- A contract state with its mutable reverse-index set cleared: two states
related by `eraseChildren`-equality agree on every field except
`childContracts`. -/
def eraseChildren (c : ContractState) : ContractState :=
  { c with childContracts := [] }

/-- Two stores hold the same contracts at the same ids, with every field
except the `childContracts` reverse index unchanged. -/
def sameShape (st st' : Store) : Prop :=
  ∀ i, (st' i).map eraseChildren = (st i).map eraseChildren

/-- The store produced by the add-loop of `__post_process` (the pure effect
of `ppGo` when every base resolves). -/
def ppStore (x : Nat) : List Nat → Store → Store
| [], st => st
| b :: bs, st => ppStore x bs (addChildTo st b x)

/-- Invariant maintained while `run_post_process` drains its queue: `past`
holds the ids whose callbacks have run; the store keeps its shape, every
child set lists exactly the already-processed direct heirs, and child sets
stay duplicate-free. -/
def PPInvariant (st₀ : Store) (past : List Nat) (st : Store) : Prop :=
  sameShape st₀ st ∧
  (∀ i y, y ∈ childSet st i ↔ ∃ C, st₀ y = some C ∧ i ∈ C.baseIds ∧ y ∈ past) ∧
  (∀ i, (childSet st i).Nodup)

/-- Invariant maintained across a sequence of invalidations: `dead` holds
the destroyed contracts; a child set lists exactly the direct heirs that are
still alive. -/
def DestroyInvariant (st₀ : Store) (order dead : List Nat) (st : Store) : Prop :=
  sameShape st₀ st ∧
  (∀ i y, y ∈ childSet st i ↔
    ∃ C, st₀ y = some C ∧ i ∈ C.baseIds ∧ y ∈ order ∧ y ∉ dead) ∧
  (∀ i, (childSet st i).Nodup)

/-- Example base contract `B` (id 1). -/
def exB : ContractState :=
  { abstractFlag := false
    kind := ContractKind.contract
    fullyImplemented := some true
    linearizedBaseContracts := [1]
    documentation := none
    baseIds := []
    enums := []
    errors := []
    events := []
    functions := []
    modifiers := []
    structs := []
    userDefinedValueTypes := []
    usingForDirectives := []
    declaredVariables := []
    childContracts := [] }

/-- Example derived contract `C is B` (id 2, one specifier resolving to 1). -/
def exC : ContractState :=
  { abstractFlag := false
    kind := ContractKind.contract
    fullyImplemented := some true
    linearizedBaseContracts := [2, 1]
    documentation := none
    baseIds := [1]
    enums := []
    errors := []
    events := []
    functions := []
    modifiers := []
    structs := []
    userDefinedValueTypes := []
    usingForDirectives := []
    declaredVariables := []
    childContracts := [] }

/-- Example two-contract unit: `B` at id 1, `C` at id 2. -/
def exStore : Store :=
  fun i => if i = 1 then some exB else if i = 2 then some exC else none

/-! ## The name-span locator (`ContractDefinition._parse_name_location`)

The three compiled patterns work on the raw source byte slice of the
declaration.  Python's `\s` over bytes is the six ASCII whitespace
characters; the identifier class is `[a-zA-Z$_][a-zA-Z0-9$_]*`.  The
patterns are anchored at the start of the slice and the matcher below
implements the regex semantics directly (the greedy quantifiers never need
to give characters back here, because a whitespace character can never begin
the literal that follows a `\s*`, and the optional `(abstract\s)?` group is
tried first and falls back to the empty alternative, as the engine does). -/

/-- Python `\s` on bytes. -/
def isWsB (c : Char) : Bool :=
  c = ' ' || c = '\t' || c = '\n' || c = '\r' || c = '\x0b' || c = '\x0c'

/-- `[a-zA-Z$_]`. -/
def isIdentStartB (c : Char) : Bool :=
  c.isAlpha || c = '$' || c = '_'

/-- `[a-zA-Z0-9$_]`. -/
def isIdentContB (c : Char) : Bool :=
  c.isAlpha || c.isDigit || c = '$' || c = '_'

def contractKw : List Char := ['c', 'o', 'n', 't', 'r', 'a', 'c', 't']

def interfaceKw : List Char := ['i', 'n', 't', 'e', 'r', 'f', 'a', 'c', 'e']

def libraryKw : List Char := ['l', 'i', 'b', 'r', 'a', 'r', 'y']

def abstractKw : List Char := ['a', 'b', 's', 't', 'r', 'a', 'c', 't']

/-- Number of leading whitespace characters (the maximal munch of `\s*`). -/
def dropWs : List Char → Nat
| [] => 0
| c :: cs => if isWsB c then dropWs cs + 1 else 0

/-- Maximal run of identifier-continuation characters. -/
def identContLen : List Char → Nat
| [] => 0
| c :: cs => if isIdentContB c then identContLen cs + 1 else 0

/-- Whether `k` is an initial segment of `s`. -/
def leadsWith : List Char → List Char → Bool
| [], _ => true
| _ :: _, [] => false
| k :: ks, c :: cs => k = c && leadsWith ks cs

/-- The `\s+(?P<name>identifier)` tail shared by all three patterns.  `pos`
is the offset of `s` within the declaration slice; the returned pair is the
`[start, end)` span of the `name` group within the slice. -/
def matchNameTailAux (pos w : Nat) : List Char → Option (Nat × Nat)
| [] => none
| c :: cs =>
  if isIdentStartB c then some (pos + w, pos + w + 1 + identContLen cs) else none

def matchNameTail (pos : Nat) (s : List Char) : Option (Nat × Nat) :=
  if dropWs s = 0 then none
  else matchNameTailAux pos (dropWs s) (s.drop (dropWs s))

/-- Match a literal keyword followed by the name tail. -/
def matchKeywordName (kw : List Char) (pos : Nat) (s : List Char) : Option (Nat × Nat) :=
  if leadsWith kw s then matchNameTail (pos + kw.length) (s.drop kw.length) else none

/-- The `(abstract\s)?\s*contract` alternative with the group present. -/
def matchAbstractAux (pos : Nat) : List Char → Option (Nat × Nat)
| [] => none
| c :: cs =>
  if isWsB c then
    matchKeywordName contractKw (pos + 9 + dropWs cs) (cs.drop (dropWs cs))
  else none

def matchAbstractContract (pos : Nat) (s : List Char) : Option (Nat × Nat) :=
  if leadsWith abstractKw s then matchAbstractAux pos (s.drop 8) else none

/-- `CONTRACT_RE`: `^\s*(abstract\s)?\s*contract\s+(?P<name>identifier)`. -/
def contractReMatch (s : List Char) : Option (Nat × Nat) :=
  (matchAbstractContract (dropWs s) (s.drop (dropWs s))).orElse
    (fun _ => matchKeywordName contractKw (dropWs s) (s.drop (dropWs s)))

/-- `INTERFACE_RE`: `^\s*interface\s+(?P<name>identifier)`. -/
def interfaceReMatch (s : List Char) : Option (Nat × Nat) :=
  matchKeywordName interfaceKw (dropWs s) (s.drop (dropWs s))

/-- `LIBRARY_RE`: `^\s*library\s+(?P<name>identifier)`. -/
def libraryReMatch (s : List Char) : Option (Nat × Nat) :=
  matchKeywordName libraryKw (dropWs s) (s.drop (dropWs s))

/-- The pattern selected for a kind by `_parse_name_location`. -/
def reMatchFor (kind : ContractKind) (s : List Char) : Option (Nat × Nat) :=
  match kind with
  | ContractKind.contract => contractReMatch s
  | ContractKind.interface => interfaceReMatch s
  | ContractKind.library => libraryReMatch s

/-- `ContractDefinition._parse_name_location`: match the kind's pattern
against the declaration's source slice; `assert match` turns a failed match
into a fatal error (`none`); on success the span is made absolute by adding
`byte_location[0]` to the match's group offsets. -/
def parseNameLocation (kind : ContractKind) (locStart : Nat) (src : List Char) :
    Option (Nat × Nat) :=
  match reMatchFor kind src with
  | none => none
  | some (s, e) => some (locStart + s, locStart + e)

/-- Modelled from the spec: the leading pattern of a declaration kind in
plain words — optional whitespace, for contracts an optional `abstract`
followed by a whitespace character (and further whitespace), the kind's
keyword, at least one whitespace character, then an identifier start
character. -/
def KeywordPattern (kind : ContractKind) (s : List Char) : Prop :=
  ∃ w₁ pre w₂ c rest,
    s = w₁ ++ pre ++ (match kind with
        | ContractKind.contract => contractKw
        | ContractKind.interface => interfaceKw
        | ContractKind.library => libraryKw) ++ w₂ ++ c :: rest ∧
    (∀ d ∈ w₁, isWsB d = true) ∧
    w₂ ≠ [] ∧ (∀ d ∈ w₂, isWsB d = true) ∧
    isIdentStartB c = true ∧
    (pre = [] ∨
      (kind = ContractKind.contract ∧
        ∃ sc w₃, pre = abstractKw ++ sc :: w₃ ∧ isWsB sc = true ∧
          ∀ d ∈ w₃, isWsB d = true))

/-- The `\s+identifier` shape of the tail following a keyword. -/
def TailShape (s : List Char) : Prop :=
  ∃ w c rest, s = w ++ c :: rest ∧ w ≠ [] ∧ (∀ d ∈ w, isWsB d = true) ∧
    isIdentStartB c = true

/-! ## Subtree iteration (`__iter__`)

`ContractDefinition.__iter__` and `Switch.__iter__` yield the node itself
and then delegate to the `__iter__` of every owned child, in the fixed field
order of the source.  The owned children's classes are outside the sources;
modelled from the spec, each child node iterates as itself followed by all
its descendants in depth-first pre-order, which the generic rose tree below
captures.  Nodes are identified by labels. -/

inductive IrTree where
| node : Nat → List IrTree → IrTree
deriving Repr

mutual

/-- Generic depth-first pre-order iteration: the node itself, then every
descendant.  Modelled from the spec for the child node classes that are not
among the sources. -/
def iterTree : IrTree → List Nat
| IrTree.node l cs => l :: iterForest cs

/-- Iteration of a list of sibling subtrees, in order. -/
def iterForest : List IrTree → List Nat
| [] => []
| t :: ts => iterTree t ++ iterForest ts

end

mutual

/-- The multiset of nodes of a subtree (the node and all its descendants),
as given by the ownership structure. -/
def treeNodes : IrTree → Multiset Nat
| IrTree.node l cs => l ::ₘ forestNodes cs

/-- The multiset of nodes of a list of subtrees. -/
def forestNodes : List IrTree → Multiset Nat
| [] => 0
| t :: ts => treeNodes t + forestNodes ts

end

/-- The owned children of a contract node, as subtrees, in the field order of
`ContractDefinition.__iter__`'s source. -/
structure ContractIterNode where
  baseContracts : List IrTree
  documentation : Option (Sum IrTree (List Char))
  enums : List IrTree
  errors : List IrTree
  events : List IrTree
  functions : List IrTree
  modifiers : List IrTree
  structs : List IrTree
  userDefinedValueTypes : List IrTree
  usingForDirectives : List IrTree
  declaredVariables : List IrTree

/-- The documentation contributes a subtree only when it is a structured
documentation node (a plain-string documentation is not an IR node and is
not yielded). -/
def docForest : Option (Sum IrTree (List Char)) → List IrTree
| some (Sum.inl d) => [d]
| _ => []

/-- `ContractDefinition.__iter__`: yield `self`, then iterate the
inheritance specifiers, the structured documentation, and the nine
owned-children lists, in source order. -/
def iterContract (self : Nat) (c : ContractIterNode) : List Nat :=
  self ::
    (iterForest c.baseContracts ++ iterForest (docForest c.documentation) ++
      iterForest c.enums ++ iterForest c.errors ++ iterForest c.events ++
      iterForest c.functions ++ iterForest c.modifiers ++ iterForest c.structs ++
      iterForest c.userDefinedValueTypes ++ iterForest c.usingForDirectives ++
      iterForest c.declaredVariables)

/-- The multiset of nodes of a contract's subtree: the contract itself plus
the nodes of every owned child subtree. -/
def contractNodes (self : Nat) (c : ContractIterNode) : Multiset Nat :=
  self ::ₘ
    (forestNodes c.baseContracts + forestNodes (docForest c.documentation) +
      forestNodes c.enums + forestNodes c.errors + forestNodes c.events +
      forestNodes c.functions + forestNodes c.modifiers + forestNodes c.structs +
      forestNodes c.userDefinedValueTypes + forestNodes c.usingForDirectives +
      forestNodes c.declaredVariables)

/-- The owned children of a switch node: the scrutinee expression and the
case list. -/
structure SwitchIterNode where
  expression : IrTree
  cases : List IrTree

/-- `Switch.__iter__`: yield `self`, then the scrutinee expression's
subtree, then each case's subtree. -/
def iterSwitch (self : Nat) (s : SwitchIterNode) : List Nat :=
  self :: (iterTree s.expression ++ iterForest s.cases)

/-- The multiset of nodes of a switch's subtree. -/
def switchNodes (self : Nat) (s : SwitchIterNode) : Multiset Nat :=
  self ::ₘ (treeNodes s.expression + forestNodes s.cases)

/-! ## Construction dispatch (claim C2) -/

/-- A raw contract whose single body member is a variant outside the nine
expected kinds. -/
def exUnrecognizedBody : SolcContractDef :=
  { abstractFlag := false
    kind := ContractKind.contract
    fullyImplemented := some true
    linearizedBaseContracts := [5]
    documentation := none
    baseContracts := []
    nodes := [SolcContractBodyNode.unrecognized 7] }

/-- The state `exUnrecognizedBody` constructs to: every owned-children list
is empty, i.e. the unrecognized member was skipped. -/
def exSkippedState : ContractState :=
  { abstractFlag := false
    kind := ContractKind.contract
    fullyImplemented := some true
    linearizedBaseContracts := [5]
    documentation := none
    baseIds := []
    enums := []
    errors := []
    events := []
    functions := []
    modifiers := []
    structs := []
    userDefinedValueTypes := []
    usingForDirectives := []
    declaredVariables := []
    childContracts := [] }

/-- C2, counterexample: a contract whose `nodes` list holds a raw variant
outside the expected fixed set is constructed *successfully* — the
body-member loop of `ContractDefinition.__init__` has no `else` branch, so
the member is silently skipped instead of aborting construction.  This
refutes the claim that an out-of-set raw child kind is fatal at every
dispatch site. -/
theorem unrecognized_body_member_is_silently_skipped :
    buildContract exUnrecognizedBody = Except.ok exSkippedState := by
  rfl

/-- C2, amended: the documentation dispatch of `ContractDefinition.__init__`
and the scrutinee dispatch of `Switch.__init__` are fatal on a raw variant
outside their expected sets, but the body-member loop over `contract.nodes`
silently skips such a variant: construction of the contract proceeds exactly
as if the unrecognized member were absent. -/
theorem dispatch_on_unexpected_raw_variant :
    (∀ i : Nat, buildDocumentation (some (SolcDocumentation.unrecognized i)) =
        Except.error ConstructionError.unknownDocumentationType) ∧
    (∀ (i : Nat) (cs : List Nat),
        buildSwitch ⟨YulSwitchExprNode.unrecognized i, cs⟩ =
          Except.error ConstructionError.unexpectedSwitchExpression) ∧
    (∀ (c : SolcContractDef) (pre post : List SolcContractBodyNode) (i : Nat),
        buildContract { c with nodes := pre ++ SolcContractBodyNode.unrecognized i :: post } =
          buildContract { c with nodes := pre ++ post }) := by
  refine ⟨fun i => rfl, fun i cs => rfl, fun c pre post i => ?_⟩
  have hbody : buildBody (pre ++ SolcContractBodyNode.unrecognized i :: post) =
      buildBody (pre ++ post) := by
    simp [buildBody, List.foldl_append, processBodyNode]
  unfold buildContract
  simp only [hbody]

/-! ## Iteration (claim C5) -/

mutual

theorem iterTree_nodes : ∀ t : IrTree, (iterTree t : Multiset Nat) = treeNodes t
| IrTree.node l cs => by
    rw [iterTree, treeNodes, ← iterForest_nodes cs, Multiset.cons_coe]

theorem iterForest_nodes : ∀ ts : List IrTree, (iterForest ts : Multiset Nat) = forestNodes ts
| [] => rfl
| t :: ts => by
    rw [iterForest, forestNodes, ← iterTree_nodes t, ← iterForest_nodes ts,
      Multiset.coe_add]

end

/-! ## Store lemmas (claims C1, C3, C4, C9, C10) -/

theorem updStore_self (st : Store) (b : Nat) (c : ContractState) :
    updStore st b c b = some c := by
  simp [updStore]

theorem updStore_other (st : Store) (b : Nat) (c : ContractState) (i : Nat) (h : i ≠ b) :
    updStore st b c i = st i := by
  simp [updStore, h]

theorem updStore_comm (st : Store) (b b' : Nat) (v w : ContractState) (h : b ≠ b') :
    updStore (updStore st b v) b' w = updStore (updStore st b' w) b v := by
  funext i
  unfold updStore
  split_ifs with h1 h2 <;> simp_all

theorem updStore_collapse (st : Store) (b : Nat) (v w : ContractState) :
    updStore (updStore st b v) b w = updStore st b w := by
  funext i
  unfold updStore
  split_ifs <;> rfl

theorem updStore_eq_self (st : Store) (b : Nat) (v : ContractState) (h : st b = some v) :
    updStore st b v = st := by
  funext i
  unfold updStore
  split_ifs with h1
  · rw [h1, h]
  · rfl

theorem sameShape_refl (st : Store) : sameShape st st := fun _ => rfl

theorem sameShape_trans {a b c : Store} (h1 : sameShape a b) (h2 : sameShape b c) :
    sameShape a c := fun i => (h2 i).trans (h1 i)

theorem sameShape_isSome {st st' : Store} (h : sameShape st st') (i : Nat) :
    (st' i).isSome = (st i).isSome := by
  have hi := h i
  cases ha : st i <;> cases hb : st' i <;> rw [ha, hb] at hi <;> simp_all

theorem sameShape_some {st st' : Store} (h : sameShape st st') (i : Nat) (c : ContractState)
    (hc : st' i = some c) : ∃ c₀, st i = some c₀ ∧ eraseChildren c₀ = eraseChildren c := by
  have hi := h i
  rw [hc] at hi
  cases ha : st i with
  | none => rw [ha] at hi; simp at hi
  | some c₀ =>
    rw [ha] at hi
    simp only [Option.map_some', Option.some.injEq] at hi
    exact ⟨c₀, rfl, hi.symm⟩

theorem eraseChildren_baseIds (c : ContractState) : (eraseChildren c).baseIds = c.baseIds :=
  rfl

theorem sameShape_baseIds {st st' : Store} (h : sameShape st st') (i : Nat)
    (c : ContractState) (hc : st' i = some c) :
    ∃ c₀, st i = some c₀ ∧ c₀.baseIds = c.baseIds := by
  obtain ⟨c₀, h₀, he⟩ := sameShape_some h i c hc
  exact ⟨c₀, h₀, by rw [← eraseChildren_baseIds c₀, ← eraseChildren_baseIds c, he]⟩

theorem childSet_eq (st : Store) (i : Nat) (c : ContractState) (h : st i = some c) :
    childSet st i = c.childContracts := by
  simp [childSet, h]

theorem childSet_none (st : Store) (i : Nat) (h : st i = none) : childSet st i = [] := by
  simp [childSet, h]

theorem addChildTo_eq_none (st : Store) (b x : Nat) (h : st b = none) :
    addChildTo st b x = st := by
  unfold addChildTo
  rw [h]

theorem addChildTo_eq_some (st : Store) (b x : Nat) (bc : ContractState)
    (h : st b = some bc) :
    addChildTo st b x =
      updStore st b { bc with childContracts := addUnique bc.childContracts x } := by
  unfold addChildTo
  rw [h]

theorem addChildTo_isSome (st : Store) (b x i : Nat) :
    ((addChildTo st b x) i).isSome = (st i).isSome := by
  cases hb : st b with
  | none => rw [addChildTo_eq_none st b x hb]
  | some bc =>
    rw [addChildTo_eq_some st b x bc hb]
    by_cases hi : i = b
    · subst hi
      rw [updStore_self, hb]
      rfl
    · rw [updStore_other st b _ i hi]

theorem addChildTo_other (st : Store) (b x i : Nat) (h : i ≠ b) :
    addChildTo st b x i = st i := by
  cases hb : st b with
  | none => rw [addChildTo_eq_none st b x hb]
  | some bc =>
    rw [addChildTo_eq_some st b x bc hb]
    exact updStore_other st b _ i h

theorem addChildTo_shape (st : Store) (b x : Nat) : sameShape st (addChildTo st b x) := by
  intro i
  cases hb : st b with
  | none => rw [addChildTo_eq_none st b x hb]
  | some bc =>
    rw [addChildTo_eq_some st b x bc hb]
    by_cases hi : i = b
    · subst hi
      rw [updStore_self, hb]
      rfl
    · rw [updStore_other st b _ i hi]

theorem mem_addUnique (l : List Nat) (x y : Nat) :
    y ∈ addUnique l x ↔ y ∈ l ∨ y = x := by
  unfold addUnique
  split_ifs with h
  · constructor
    · exact fun hy => Or.inl hy
    · rintro (hy | rfl)
      · exact hy
      · exact h
  · simp [List.mem_cons, or_comm]

theorem nodup_addUnique (l : List Nat) (x : Nat) (h : l.Nodup) : (addUnique l x).Nodup := by
  unfold addUnique
  split_ifs with hm
  · exact h
  · simp [List.nodup_cons, hm, h]

theorem childSet_updStore_self (st : Store) (b : Nat) (v : ContractState) :
    childSet (updStore st b v) b = v.childContracts := by
  simp [childSet, updStore_self]

theorem childSet_updStore_other (st : Store) (b : Nat) (v : ContractState) (i : Nat)
    (h : i ≠ b) : childSet (updStore st b v) i = childSet st i := by
  simp [childSet, updStore_other st b v i h]

theorem mem_childSet_addChildTo (st : Store) (b x i y : Nat) :
    y ∈ childSet (addChildTo st b x) i ↔
      y ∈ childSet st i ∨ (y = x ∧ i = b ∧ (st b).isSome = true) := by
  cases hb : st b with
  | none =>
    rw [addChildTo_eq_none st b x hb]
    simp [hb]
  | some bc =>
    rw [addChildTo_eq_some st b x bc hb]
    by_cases hi : i = b
    · subst hi
      rw [childSet_updStore_self, childSet_eq st i bc hb]
      simp only [mem_addUnique, hb, Option.isSome_some, and_true, true_and]
      try tauto
    · rw [childSet_updStore_other st b _ i hi]
      simp [hi]

theorem nodup_childSet_addChildTo (st : Store) (b x i : Nat)
    (h : (childSet st i).Nodup) : (childSet (addChildTo st b x) i).Nodup := by
  cases hb : st b with
  | none =>
    rw [addChildTo_eq_none st b x hb]
    exact h
  | some bc =>
    rw [addChildTo_eq_some st b x bc hb]
    by_cases hi : i = b
    · subst hi
      rw [childSet_updStore_self]
      rw [childSet_eq st i bc hb] at h
      exact nodup_addUnique _ _ h
    · rw [childSet_updStore_other st b _ i hi]
      exact h

theorem ppStore_isSome (x : Nat) : ∀ (bs : List Nat) (st : Store) (i : Nat),
    ((ppStore x bs st) i).isSome = (st i).isSome := by
  intro bs
  induction bs with
  | nil => intro st i; rfl
  | cons b bs ih =>
    intro st i
    simp only [ppStore]
    rw [ih, addChildTo_isSome]

theorem ppStore_shape (x : Nat) : ∀ (bs : List Nat) (st : Store),
    sameShape st (ppStore x bs st) := by
  intro bs
  induction bs with
  | nil => intro st; exact sameShape_refl st
  | cons b bs ih =>
    intro st
    exact sameShape_trans (addChildTo_shape st b x) (ih (addChildTo st b x))

theorem ppStore_notin (x : Nat) : ∀ (bs : List Nat) (st : Store) (i : Nat), i ∉ bs →
    ppStore x bs st i = st i := by
  intro bs
  induction bs with
  | nil => intro st i _; rfl
  | cons b bs ih =>
    intro st i hi
    simp only [ppStore]
    rw [ih (addChildTo st b x) i (fun hmem => hi (by simp [hmem])),
      addChildTo_other st b x i (fun he => hi (by simp [he]))]

theorem mem_childSet_ppStore (x : Nat) : ∀ (bs : List Nat) (st : Store) (i y : Nat),
    (∀ b ∈ bs, (st b).isSome = true) →
    (y ∈ childSet (ppStore x bs st) i ↔ y ∈ childSet st i ∨ (y = x ∧ i ∈ bs)) := by
  intro bs
  induction bs with
  | nil => intro st i y _; simp [ppStore]
  | cons b bs ih =>
    intro st i y hdom
    simp only [ppStore]
    rw [ih (addChildTo st b x) i y
      (fun b' hb' => by rw [addChildTo_isSome]; exact hdom b' (by simp [hb']))]
    rw [mem_childSet_addChildTo]
    have hb := hdom b (by simp)
    simp only [hb, and_true, List.mem_cons]
    tauto

theorem nodup_childSet_ppStore (x : Nat) : ∀ (bs : List Nat) (st : Store) (i : Nat),
    (childSet st i).Nodup → (childSet (ppStore x bs st) i).Nodup := by
  intro bs
  induction bs with
  | nil => intro st i h; exact h
  | cons b bs ih =>
    intro st i h
    simp only [ppStore]
    exact ih (addChildTo st b x) i (nodup_childSet_addChildTo st b x i h)

theorem ppGo_eq (x : Nat) : ∀ (bs : List Nat) (st : Store),
    (∀ b ∈ bs, (st b).isSome = true) →
    ppGo x bs st = some (ppStore x bs st, bs) := by
  intro bs
  induction bs with
  | nil => intro st _; rfl
  | cons b bs ih =>
    intro st hdom
    obtain ⟨bc, hbc⟩ := Option.isSome_iff_exists.mp (hdom b (by simp))
    have hdom' : ∀ b' ∈ bs, ((addChildTo st b x) b').isSome = true := by
      intro b' hb'
      rw [addChildTo_isSome]
      exact hdom b' (by simp [hb'])
    unfold ppGo
    rw [hbc, ih (addChildTo st b x) hdom']
    rfl

theorem ppStore_updStore_comm (x : Nat) : ∀ (bs : List Nat) (st : Store) (b : Nat)
    (v : ContractState), b ∉ bs →
    ppStore x bs (updStore st b v) = updStore (ppStore x bs st) b v := by
  intro bs
  induction bs with
  | nil => intro st b v _; rfl
  | cons b' bs ih =>
    intro st b v hb
    have hne : b' ≠ b := fun he => hb (by simp [he.symm])
    simp only [ppStore]
    have hstep : addChildTo (updStore st b v) b' x = updStore (addChildTo st b' x) b v := by
      have hread : (updStore st b v) b' = st b' := updStore_other st b v b' hne
      cases hb' : st b' with
      | none =>
        rw [addChildTo_eq_none _ b' x (hread.trans hb'), addChildTo_eq_none st b' x hb']
      | some bc =>
        rw [addChildTo_eq_some _ b' x bc (hread.trans hb'), addChildTo_eq_some st b' x bc hb',
          updStore_comm st b b' v _ (fun he => hne he.symm)]
    rw [hstep, ih (addChildTo st b' x) b v (fun hmem => hb (by simp [hmem]))]

theorem destroyGo_append (x : Nat) : ∀ (l₁ l₂ : List Nat) (st : Store),
    destroyGo x (l₁ ++ l₂) st = (destroyGo x l₁ st).bind (fun st' => destroyGo x l₂ st') := by
  intro l₁
  induction l₁ with
  | nil => intro l₂ st; rfl
  | cons b bs ih =>
    intro l₂ st
    cases hb : st b with
    | none => simp [destroyGo, hb]
    | some bc =>
      by_cases hx : x ∈ bc.childContracts
      · simp [destroyGo, hb, hx, ih]
      · simp [destroyGo, hb, hx]

theorem destroyGo_fail (x b : Nat) (bs : List Nat) (st : Store) (bc : ContractState)
    (h : st b = some bc) (habs : x ∉ bc.childContracts) :
    destroyGo x (b :: bs) st = none := by
  simp [destroyGo, h, habs]

theorem destroyGo_success (x : Nat) : ∀ (bs : List Nat) (st : Store),
    bs.Nodup →
    (∀ b ∈ bs, ∃ bc, st b = some bc ∧ x ∈ bc.childContracts) →
    ∃ st', destroyGo x bs st = some st' ∧
      sameShape st st' ∧
      (∀ i, i ∉ bs → st' i = st i) ∧
      (∀ b ∈ bs, ∀ bc, st b = some bc →
        st' b = some { bc with childContracts := bc.childContracts.erase x }) := by
  intro bs
  induction bs with
  | nil =>
    intro st _ _
    exact ⟨st, rfl, sameShape_refl st, fun i _ => rfl, fun b hb => absurd hb (by simp)⟩
  | cons b bs ih =>
    intro st hnd hpres
    obtain ⟨bc, hbc, hx⟩ := hpres b (by simp)
    have hbn : b ∉ bs := (List.nodup_cons.mp hnd).1
    have hnd' : bs.Nodup := (List.nodup_cons.mp hnd).2
    have hpres' : ∀ b' ∈ bs,
        ∃ bc', (updStore st b { bc with childContracts := bc.childContracts.erase x }) b' =
          some bc' ∧ x ∈ bc'.childContracts := by
      intro b' hb'
      have hne : b' ≠ b := fun he => hbn (he ▸ hb')
      rw [updStore_other st b _ b' hne]
      exact hpres b' (by simp [hb'])
    obtain ⟨st', hrun, hshape, hoff, hon⟩ :=
      ih (updStore st b { bc with childContracts := bc.childContracts.erase x }) hnd' hpres'
    refine ⟨st', ?_, ?_, ?_, ?_⟩
    · simp only [destroyGo]
      rw [hbc]
      simp only [hx, if_true]
      exact hrun
    · refine sameShape_trans ?_ hshape
      intro i
      by_cases hi : i = b
      · subst hi
        rw [updStore_self, hbc]
        rfl
      · rw [updStore_other st b _ i hi]
    · intro i hi
      have hne : i ≠ b := fun he => hi (by simp [he])
      rw [hoff i (fun hmem => hi (by simp [hmem])), updStore_other st b _ i hne]
    · intro b' hb' bc₀ hbc₀
      rcases List.mem_cons.mp hb' with rfl | hmem
      · have hbceq : bc₀ = bc := by
          rw [hbc] at hbc₀
          exact (Option.some.injEq _ _).mp hbc₀.symm
        subst hbceq
        rw [hoff b' hbn, updStore_self]
      · have hne : b' ≠ b := fun he => hbn (he ▸ hmem)
        have hst₁ : (updStore st b { bc with childContracts := bc.childContracts.erase x }) b' =
            some bc₀ := by
          rw [updStore_other st b _ b' hne]
          exact hbc₀
        exact hon b' hmem bc₀ hst₁

theorem lookupCb_map (f : Nat → List Nat) : ∀ (order : List Nat) (d : Nat), d ∈ order →
    lookupCb (order.map (fun i => (i, f i))) d = some (f d) := by
  intro order
  induction order with
  | nil => intro d hd; simp at hd
  | cons i is ih =>
    intro d hd
    simp only [List.map_cons, lookupCb]
    by_cases hid : i = d
    · subst hid
      simp
    · rw [if_neg hid]
      refine ih d ?_
      rcases List.mem_cons.mp hd with rfl | h
      · exact absurd rfl hid
      · exact h

theorem runPP_sound (st₀ : Store)
    (Hres : ∀ i C, st₀ i = some C → ∀ b ∈ C.baseIds, (st₀ b).isSome = true) :
    ∀ (rest past : List Nat) (st : Store),
      (∀ i ∈ rest, (st₀ i).isSome = true) →
      PPInvariant st₀ past st →
      ∃ st', runPP rest st = some (st', rest.map (fun i => (i, baseIdsAt st₀ i))) ∧
        PPInvariant st₀ (past ++ rest) st' := by
  intro rest
  induction rest with
  | nil =>
    intro past st _ hinv
    exact ⟨st, rfl, by simpa using hinv⟩
  | cons i is ih =>
    intro past st hdom hinv
    obtain ⟨hshape, hmem, hnd⟩ := hinv
    have hsome0 : (st₀ i).isSome = true := hdom i (by simp)
    have hsome : (st i).isSome = true := by
      rw [sameShape_isSome hshape i]
      exact hsome0
    obtain ⟨c, hc⟩ := Option.isSome_iff_exists.mp hsome
    obtain ⟨C₀, hC₀, hbeq⟩ := sameShape_baseIds hshape i c hc
    have hbdom : ∀ b ∈ c.baseIds, (st b).isSome = true := by
      intro b hb
      rw [sameShape_isSome hshape b]
      exact Hres i C₀ hC₀ b (by rw [hbeq]; exact hb)
    have hpp := ppGo_eq i c.baseIds st hbdom
    have hinv' : PPInvariant st₀ (past ++ [i]) (ppStore i c.baseIds st) := by
      refine ⟨sameShape_trans hshape (ppStore_shape i c.baseIds st), ?_, ?_⟩
      · intro j y
        rw [mem_childSet_ppStore i c.baseIds st j y hbdom, hmem j y]
        constructor
        · rintro (⟨C, hCy, hjC, hy⟩ | ⟨rfl, hj⟩)
          · exact ⟨C, hCy, hjC, by simp [hy]⟩
          · exact ⟨C₀, hC₀, by rw [hbeq]; exact hj, by simp⟩
        · rintro ⟨C, hCy, hjC, hy⟩
          rcases List.mem_append.mp hy with hy | hy
          · exact Or.inl ⟨C, hCy, hjC, hy⟩
          · simp only [List.mem_singleton] at hy
            subst hy
            rw [hC₀] at hCy
            have hCeq : C = C₀ := by
              injection hCy with h
              exact h.symm
            refine Or.inr ⟨rfl, ?_⟩
            rw [← hbeq, ← hCeq]
            exact hjC
      · intro j
        exact nodup_childSet_ppStore i c.baseIds st j (hnd j)
    obtain ⟨st', hrun, hfin⟩ := ih (past ++ [i]) (ppStore i c.baseIds st)
      (fun j hj => hdom j (by simp [hj])) hinv'
    have hbase : baseIdsAt st₀ i = c.baseIds := by
      rw [baseIdsAt, hC₀]
      simpa using hbeq
    refine ⟨st', ?_, ?_⟩
    · simp [runPP, hc, hpp, hrun, hbase]
    · have hlist : (past ++ [i]) ++ is = past ++ i :: is := by simp
      rw [hlist] at hfin
      exact hfin

theorem runInv_sound (st₀ : Store) (order : List Nat)
    (Hdom : ∀ i ∈ order, (st₀ i).isSome = true)
    (Hres : ∀ i C, st₀ i = some C → ∀ b ∈ C.baseIds, (st₀ b).isSome = true)
    (Hnodupb : ∀ i C, st₀ i = some C → C.baseIds.Nodup) :
    ∀ (ds dead : List Nat) (st : Store),
      ds.Nodup →
      (∀ d ∈ ds, d ∈ order ∧ d ∉ dead) →
      DestroyInvariant st₀ order dead st →
      ∃ st', runInvalidations (order.map (fun i => (i, baseIdsAt st₀ i))) ds st = some st' ∧
        DestroyInvariant st₀ order (dead ++ ds) st' := by
  intro ds
  induction ds with
  | nil =>
    intro dead st _ _ hinv
    exact ⟨st, rfl, by simpa using hinv⟩
  | cons d ds ih =>
    intro dead st hnd hdin hinv
    obtain ⟨hshape, hmem, hnodup⟩ := hinv
    obtain ⟨hdord, hddead⟩ := hdin d (by simp)
    obtain ⟨C, hC⟩ := Option.isSome_iff_exists.mp (Hdom d hdord)
    have hlk : lookupCb (order.map (fun i => (i, baseIdsAt st₀ i))) d =
        some (baseIdsAt st₀ d) := lookupCb_map _ order d hdord
    have hrecbase : baseIdsAt st₀ d = C.baseIds := by
      rw [baseIdsAt, hC]
      rfl
    have hpres : ∀ b ∈ C.baseIds, ∃ bc, st b = some bc ∧ d ∈ bc.childContracts := by
      intro b hb
      have hbs : (st₀ b).isSome = true := Hres d C hC b hb
      have hbs' : (st b).isSome = true := by
        rw [sameShape_isSome hshape b]
        exact hbs
      obtain ⟨bc, hbc⟩ := Option.isSome_iff_exists.mp hbs'
      refine ⟨bc, hbc, ?_⟩
      have hm := (hmem b d).mpr ⟨C, hC, hb, hdord, hddead⟩
      rw [childSet_eq st b bc hbc] at hm
      exact hm
    obtain ⟨st₁, hdg, hshape₁, hoff, hon⟩ :=
      destroyGo_success d C.baseIds st (Hnodupb d C hC) hpres
    have hinv' : DestroyInvariant st₀ order (dead ++ [d]) st₁ := by
      refine ⟨sameShape_trans hshape hshape₁, ?_, ?_⟩
      · intro j y
        by_cases hj : j ∈ C.baseIds
        · obtain ⟨bc, hbc, hdm⟩ := hpres j hj
          rw [childSet_eq st₁ j _ (hon j hj bc hbc)]
          have hnb : bc.childContracts.Nodup := by
            rw [← childSet_eq st j bc hbc]
            exact hnodup j
          rw [List.Nodup.mem_erase_iff hnb, ← childSet_eq st j bc hbc, hmem j y]
          constructor
          · rintro ⟨hyne, C', hC', hjC', hord, hdead'⟩
            refine ⟨C', hC', hjC', hord, ?_⟩
            intro hy
            rcases List.mem_append.mp hy with hy1 | hy1
            · exact hdead' hy1
            · simp only [List.mem_singleton] at hy1
              exact hyne hy1
          · rintro ⟨C', hC', hjC', hord, hdead'⟩
            have h1 : y ∉ dead := fun hy => hdead' (by simp [hy])
            have h2 : y ≠ d := fun hy => hdead' (by simp [hy])
            exact ⟨h2, C', hC', hjC', hord, h1⟩
        · have hcs : childSet st₁ j = childSet st j := by
            unfold childSet
            rw [hoff j hj]
          rw [hcs, hmem j y]
          constructor
          · rintro ⟨C', hC', hjC', hord, hdead'⟩
            refine ⟨C', hC', hjC', hord, ?_⟩
            intro hy
            rcases List.mem_append.mp hy with hy1 | hy1
            · exact hdead' hy1
            · simp only [List.mem_singleton] at hy1
              subst hy1
              rw [hC] at hC'
              have hCeq : C' = C := by
                injection hC' with h
                exact h.symm
              exact hj (hCeq ▸ hjC')
          · rintro ⟨C', hC', hjC', hord, hdead'⟩
            exact ⟨C', hC', hjC', hord, fun hy => hdead' (by simp [hy])⟩
      · intro j
        by_cases hj : j ∈ C.baseIds
        · obtain ⟨bc, hbc, _⟩ := hpres j hj
          rw [childSet_eq st₁ j _ (hon j hj bc hbc)]
          have hnb : bc.childContracts.Nodup := by
            rw [← childSet_eq st j bc hbc]
            exact hnodup j
          exact hnb.erase d
        · have hcs : childSet st₁ j = childSet st j := by
            unfold childSet
            rw [hoff j hj]
          rw [hcs]
          exact hnodup j
    obtain ⟨st', hrun, hfin⟩ := ih (dead ++ [d]) st₁ (List.nodup_cons.mp hnd).2
      (fun d' hd' => ⟨(hdin d' (by simp [hd'])).1, by
        intro hy
        rcases List.mem_append.mp hy with hy1 | hy1
        · exact (hdin d' (by simp [hd'])).2 hy1
        · simp only [List.mem_singleton] at hy1
          subst hy1
          exact (List.nodup_cons.mp hnd).1 hd'⟩) hinv'
    refine ⟨st', ?_, ?_⟩
    · simp [runInvalidations, hlk, hrecbase, hdg, hrun]
    · have hlist : (dead ++ [d]) ++ ds = dead ++ d :: ds := by simp
      rw [hlist] at hfin
      exact hfin

/-! ## Name-locator lemmas (claims C7 and C8) -/

theorem dropWs_le : ∀ s : List Char, dropWs s ≤ s.length := by
  intro s
  induction s with
  | nil => simp [dropWs]
  | cons c cs ih =>
    simp only [dropWs, List.length_cons]
    split
    · omega
    · omega

theorem identContLen_le : ∀ s : List Char, identContLen s ≤ s.length := by
  intro s
  induction s with
  | nil => simp [identContLen]
  | cons c cs ih =>
    simp only [identContLen, List.length_cons]
    split
    · omega
    · omega

theorem take_dropWs_ws : ∀ s : List Char, ∀ d ∈ s.take (dropWs s), isWsB d = true := by
  intro s
  induction s with
  | nil => simp
  | cons c cs ih =>
    by_cases h : isWsB c = true
    · simp only [dropWs]
      rw [if_pos h]
      simp only [List.take_succ_cons, List.mem_cons]
      rintro d (rfl | hd)
      · exact h
      · exact ih d hd
    · simp only [dropWs]
      rw [if_neg h]
      simp

theorem dropWs_ws_append : ∀ (w u : List Char),
    (∀ d ∈ w, isWsB d = true) → dropWs u = 0 → dropWs (w ++ u) = w.length := by
  intro w
  induction w with
  | nil => intro u _ hu; simpa using hu
  | cons a ws ih =>
    intro u hw hu
    have ha : isWsB a = true := hw a (by simp)
    have hcons : (a :: ws) ++ u = a :: (ws ++ u) := rfl
    rw [hcons]
    simp only [dropWs, List.length_cons]
    rw [if_pos ha, ih u (fun d hd => hw d (by simp [hd])) hu]

theorem identStart_not_ws (c : Char) (h : isIdentStartB c = true) : isWsB c = false := by
  by_contra hc
  rw [Bool.not_eq_false] at hc
  unfold isWsB at hc
  simp only [Bool.or_eq_true, decide_eq_true_eq] at hc
  rcases hc with ((((h1 | h2) | h3) | h4) | h5) | h6 <;>
    subst_vars <;> exact absurd h (by decide)

theorem leadsWith_iff : ∀ k s : List Char, leadsWith k s = true ↔ ∃ t, s = k ++ t := by
  intro k
  induction k with
  | nil => intro s; simp [leadsWith]
  | cons a ks ih =>
    intro s
    cases s with
    | nil => simp [leadsWith]
    | cons b bs =>
      simp only [leadsWith, Bool.and_eq_true, decide_eq_true_eq, ih bs,
        List.cons_append, List.cons.injEq]
      constructor
      · rintro ⟨rfl, t, rfl⟩
        exact ⟨t, rfl, rfl⟩
      · rintro ⟨t, rfl, rfl⟩
        exact ⟨rfl, t, rfl⟩

theorem leadsWith_append : ∀ k t : List Char, leadsWith k (k ++ t) = true := by
  intro k t
  exact (leadsWith_iff k (k ++ t)).mpr ⟨t, rfl⟩

theorem leadsWith_length (k s : List Char) (h : leadsWith k s = true) :
    k.length ≤ s.length := by
  obtain ⟨t, rfl⟩ := (leadsWith_iff k s).mp h
  simp

theorem matchNameTail_isSome (pos : Nat) (s : List Char) :
    (matchNameTail pos s).isSome = true ↔ TailShape s := by
  constructor
  · intro h
    unfold matchNameTail at h
    by_cases h0 : dropWs s = 0
    · rw [if_pos h0] at h
      simp at h
    · rw [if_neg h0] at h
      cases hdrop : s.drop (dropWs s) with
      | nil =>
        rw [hdrop] at h
        simp [matchNameTailAux] at h
      | cons c rest =>
        rw [hdrop] at h
        simp only [matchNameTailAux] at h
        by_cases hid : isIdentStartB c = true
        · refine ⟨s.take (dropWs s), c, rest, ?_, ?_, take_dropWs_ws s, hid⟩
          · conv_lhs => rw [← List.take_append_drop (dropWs s) s]
            rw [hdrop]
          · intro hnil
            have hlen := congrArg List.length hnil
            rw [List.length_take, Nat.min_eq_left (dropWs_le s)] at hlen
            exact h0 hlen
        · rw [if_neg hid] at h
          simp at h
  · rintro ⟨w, c, rest, rfl, hne, hws, hid⟩
    have hcws : ¬ isWsB c = true := by
      simp [identStart_not_ws c hid]
    have hd : dropWs (w ++ c :: rest) = w.length := by
      apply dropWs_ws_append w (c :: rest) hws
      simp only [dropWs]
      rw [if_neg hcws]
    have hlen : w.length ≠ 0 := by
      simpa using hne
    unfold matchNameTail
    rw [hd, if_neg hlen, List.drop_left]
    simp only [matchNameTailAux]
    rw [if_pos hid]
    rfl

theorem matchKeywordName_isSome (kw : List Char) (pos : Nat) (s : List Char) :
    (matchKeywordName kw pos s).isSome = true ↔ ∃ t, s = kw ++ t ∧ TailShape t := by
  constructor
  · intro h
    unfold matchKeywordName at h
    by_cases hl : leadsWith kw s = true
    · obtain ⟨t, rfl⟩ := (leadsWith_iff kw s).mp hl
      rw [if_pos hl, List.drop_left] at h
      exact ⟨t, rfl, (matchNameTail_isSome _ t).mp h⟩
    · rw [if_neg hl] at h
      simp at h
  · rintro ⟨t, rfl, ht⟩
    unfold matchKeywordName
    rw [if_pos (leadsWith_append kw t), List.drop_left]
    exact (matchNameTail_isSome _ t).mpr ht

theorem matchAbstractContract_isSome (pos : Nat) (s : List Char) :
    (matchAbstractContract pos s).isSome = true ↔
      ∃ sc w₃ t, s = abstractKw ++ sc :: (w₃ ++ (contractKw ++ t)) ∧
        isWsB sc = true ∧ (∀ d ∈ w₃, isWsB d = true) ∧ TailShape t := by
  constructor
  · intro h
    unfold matchAbstractContract at h
    by_cases hl : leadsWith abstractKw s = true
    · obtain ⟨u, rfl⟩ := (leadsWith_iff abstractKw s).mp hl
      rw [if_pos hl] at h
      have hdrop8 : (abstractKw ++ u).drop 8 = u := by
        rw [show (8 : Nat) = abstractKw.length from rfl, List.drop_left]
      rw [hdrop8] at h
      cases u with
      | nil => simp [matchAbstractAux] at h
      | cons c cs =>
        simp only [matchAbstractAux] at h
        by_cases hws : isWsB c = true
        · rw [if_pos hws] at h
          obtain ⟨t, hcs, ht⟩ := (matchKeywordName_isSome _ _ _).mp h
          refine ⟨c, cs.take (dropWs cs), t, ?_, hws, take_dropWs_ws cs, ht⟩
          have hsplit : cs = cs.take (dropWs cs) ++ (contractKw ++ t) := by
            conv_lhs => rw [← List.take_append_drop (dropWs cs) cs]
            rw [hcs]
          rw [← hsplit]
        · rw [if_neg hws] at h
          simp at h
    · rw [if_neg hl] at h
      simp at h
  · rintro ⟨sc, w₃, t, rfl, hsc, hw3, ht⟩
    unfold matchAbstractContract
    rw [if_pos (leadsWith_append abstractKw _)]
    rw [show (8 : Nat) = abstractKw.length from rfl, List.drop_left]
    simp only [matchAbstractAux]
    rw [if_pos hsc]
    have hc0 : dropWs (contractKw ++ t) = 0 := by
      simp only [contractKw, List.cons_append, dropWs]
      rw [if_neg]
      decide
    have hdw : dropWs (w₃ ++ (contractKw ++ t)) = w₃.length :=
      dropWs_ws_append w₃ _ hw3 hc0
    rw [hdw, List.drop_left]
    exact (matchKeywordName_isSome _ _ _).mpr ⟨t, rfl, ht⟩

theorem tailShape_of_keywordTail (w₂ : List Char) (c : Char) (rest : List Char)
    (hne : w₂ ≠ []) (hws : ∀ d ∈ w₂, isWsB d = true) (hid : isIdentStartB c = true) :
    TailShape (w₂ ++ c :: rest) :=
  ⟨w₂, c, rest, rfl, hne, hws, hid⟩

theorem contractReMatch_isSome (s : List Char) :
    (contractReMatch s).isSome = true ↔ KeywordPattern ContractKind.contract s := by
  constructor
  · intro h
    unfold contractReMatch at h
    cases habs : matchAbstractContract (dropWs s) (s.drop (dropWs s)) with
    | some v =>
      have h1 : (matchAbstractContract (dropWs s) (s.drop (dropWs s))).isSome = true := by
        rw [habs]; rfl
      obtain ⟨sc, w₃, t, hdec, hsc, hw3, ht⟩ := (matchAbstractContract_isSome _ _).mp h1
      obtain ⟨w₂, c, rest, rfl, hne, hws, hid⟩ := ht
      refine ⟨s.take (dropWs s), abstractKw ++ sc :: w₃, w₂, c, rest, ?_,
        take_dropWs_ws s, hne, hws, hid, Or.inr ⟨rfl, sc, w₃, rfl, hsc, hw3⟩⟩
      conv_lhs => rw [← List.take_append_drop (dropWs s) s]
      rw [hdec]
      simp [List.append_assoc]
    | none =>
      rw [habs] at h
      have h2 : (matchKeywordName contractKw (dropWs s) (s.drop (dropWs s))).isSome = true := by
        simpa [Option.orElse] using h
      obtain ⟨t, hdec, ht⟩ := (matchKeywordName_isSome _ _ _).mp h2
      obtain ⟨w₂, c, rest, rfl, hne, hws, hid⟩ := ht
      refine ⟨s.take (dropWs s), [], w₂, c, rest, ?_,
        take_dropWs_ws s, hne, hws, hid, Or.inl rfl⟩
      conv_lhs => rw [← List.take_append_drop (dropWs s) s]
      rw [hdec]
      simp [List.append_assoc]
  · rintro ⟨w₁, pre, w₂, c, rest, rfl, hw1, hne, hws, hid, hpre⟩
    rcases hpre with rfl | ⟨-, sc, w₃, rfl, hsc, hw3⟩
    · have hu0 : dropWs (contractKw ++ (w₂ ++ c :: rest)) = 0 := by
        simp [contractKw, dropWs, show isWsB 'c' = false from by decide]
      have hshape : w₁ ++ [] ++ contractKw ++ w₂ ++ c :: rest =
          w₁ ++ (contractKw ++ (w₂ ++ c :: rest)) := by
        simp [List.append_assoc]
      rw [hshape]
      have hdw : dropWs (w₁ ++ (contractKw ++ (w₂ ++ c :: rest))) = w₁.length :=
        dropWs_ws_append w₁ _ hw1 hu0
      unfold contractReMatch
      rw [hdw, List.drop_left]
      have habs : matchAbstractContract w₁.length (contractKw ++ (w₂ ++ c :: rest)) = none := by
        unfold matchAbstractContract
        rw [if_neg]
        simp [leadsWith, abstractKw, contractKw]
      rw [habs]
      have := (matchKeywordName_isSome contractKw w₁.length
          (contractKw ++ (w₂ ++ c :: rest))).mpr
        ⟨w₂ ++ c :: rest, rfl, tailShape_of_keywordTail w₂ c rest hne hws hid⟩
      simpa [Option.orElse] using this
    · have hshape : w₁ ++ (abstractKw ++ sc :: w₃) ++ contractKw ++ w₂ ++ c :: rest =
          w₁ ++ (abstractKw ++ sc :: (w₃ ++ (contractKw ++ (w₂ ++ c :: rest)))) := by
        simp [List.append_assoc]
      rw [hshape]
      have hu0 : dropWs (abstractKw ++ sc :: (w₃ ++ (contractKw ++ (w₂ ++ c :: rest)))) = 0 := by
        simp [abstractKw, dropWs, show isWsB 'a' = false from by decide]
      have hdw : dropWs (w₁ ++ (abstractKw ++ sc :: (w₃ ++ (contractKw ++ (w₂ ++ c :: rest))))) =
          w₁.length := dropWs_ws_append w₁ _ hw1 hu0
      unfold contractReMatch
      rw [hdw, List.drop_left]
      have habs := (matchAbstractContract_isSome w₁.length
          (abstractKw ++ sc :: (w₃ ++ (contractKw ++ (w₂ ++ c :: rest))))).mpr
        ⟨sc, w₃, w₂ ++ c :: rest, rfl, hsc, hw3,
          tailShape_of_keywordTail w₂ c rest hne hws hid⟩
      cases habs2 : matchAbstractContract w₁.length
          (abstractKw ++ sc :: (w₃ ++ (contractKw ++ (w₂ ++ c :: rest)))) with
      | none => rw [habs2] at habs; simp at habs
      | some v => simp [habs2, Option.orElse]

theorem interfaceReMatch_isSome (s : List Char) :
    (interfaceReMatch s).isSome = true ↔ KeywordPattern ContractKind.interface s := by
  constructor
  · intro h
    unfold interfaceReMatch at h
    obtain ⟨t, hdec, ht⟩ := (matchKeywordName_isSome _ _ _).mp h
    obtain ⟨w₂, c, rest, rfl, hne, hws, hid⟩ := ht
    refine ⟨s.take (dropWs s), [], w₂, c, rest, ?_,
      take_dropWs_ws s, hne, hws, hid, Or.inl rfl⟩
    conv_lhs => rw [← List.take_append_drop (dropWs s) s]
    rw [hdec]
    simp [List.append_assoc]
  · rintro ⟨w₁, pre, w₂, c, rest, rfl, hw1, hne, hws, hid, hpre⟩
    rcases hpre with rfl | ⟨habs, -⟩
    · have hu0 : dropWs (interfaceKw ++ (w₂ ++ c :: rest)) = 0 := by
        simp [interfaceKw, dropWs, show isWsB 'i' = false from by decide]
      have hshape : w₁ ++ [] ++ interfaceKw ++ w₂ ++ c :: rest =
          w₁ ++ (interfaceKw ++ (w₂ ++ c :: rest)) := by
        simp [List.append_assoc]
      rw [hshape]
      have hdw : dropWs (w₁ ++ (interfaceKw ++ (w₂ ++ c :: rest))) = w₁.length :=
        dropWs_ws_append w₁ _ hw1 hu0
      unfold interfaceReMatch
      rw [hdw, List.drop_left]
      exact (matchKeywordName_isSome interfaceKw w₁.length _).mpr
        ⟨w₂ ++ c :: rest, rfl, tailShape_of_keywordTail w₂ c rest hne hws hid⟩
    · cases habs

theorem libraryReMatch_isSome (s : List Char) :
    (libraryReMatch s).isSome = true ↔ KeywordPattern ContractKind.library s := by
  constructor
  · intro h
    unfold libraryReMatch at h
    obtain ⟨t, hdec, ht⟩ := (matchKeywordName_isSome _ _ _).mp h
    obtain ⟨w₂, c, rest, rfl, hne, hws, hid⟩ := ht
    refine ⟨s.take (dropWs s), [], w₂, c, rest, ?_,
      take_dropWs_ws s, hne, hws, hid, Or.inl rfl⟩
    conv_lhs => rw [← List.take_append_drop (dropWs s) s]
    rw [hdec]
    simp [List.append_assoc]
  · rintro ⟨w₁, pre, w₂, c, rest, rfl, hw1, hne, hws, hid, hpre⟩
    rcases hpre with rfl | ⟨habs, -⟩
    · have hu0 : dropWs (libraryKw ++ (w₂ ++ c :: rest)) = 0 := by
        simp [libraryKw, dropWs, show isWsB 'l' = false from by decide]
      have hshape : w₁ ++ [] ++ libraryKw ++ w₂ ++ c :: rest =
          w₁ ++ (libraryKw ++ (w₂ ++ c :: rest)) := by
        simp [List.append_assoc]
      rw [hshape]
      have hdw : dropWs (w₁ ++ (libraryKw ++ (w₂ ++ c :: rest))) = w₁.length :=
        dropWs_ws_append w₁ _ hw1 hu0
      unfold libraryReMatch
      rw [hdw, List.drop_left]
      exact (matchKeywordName_isSome libraryKw w₁.length _).mpr
        ⟨w₂ ++ c :: rest, rfl, tailShape_of_keywordTail w₂ c rest hne hws hid⟩
    · cases habs

theorem reMatchFor_isSome (kind : ContractKind) (s : List Char) :
    (reMatchFor kind s).isSome = true ↔ KeywordPattern kind s := by
  cases kind with
  | contract => exact contractReMatch_isSome s
  | interface => exact interfaceReMatch_isSome s
  | library => exact libraryReMatch_isSome s

theorem matchNameTail_bounds (pos : Nat) (s : List Char) (ns ne : Nat)
    (h : matchNameTail pos s = some (ns, ne)) :
    pos ≤ ns ∧ ns < ne ∧ ne ≤ pos + s.length := by
  unfold matchNameTail at h
  by_cases h0 : dropWs s = 0
  · rw [if_pos h0] at h; cases h
  · rw [if_neg h0] at h
    cases hdrop : s.drop (dropWs s) with
    | nil => rw [hdrop] at h; simp [matchNameTailAux] at h
    | cons c cs =>
      rw [hdrop] at h
      simp only [matchNameTailAux] at h
      by_cases hid : isIdentStartB c = true
      · rw [if_pos hid] at h
        have hl := dropWs_le s
        have hmm : (s.drop (dropWs s)).length = s.length - dropWs s :=
          List.length_drop _ _
        rw [hdrop] at hmm
        simp only [List.length_cons] at hmm
        have hident := identContLen_le cs
        simp only [Option.some.injEq, Prod.mk.injEq] at h
        obtain ⟨h1, h2⟩ := h
        subst h1
        subst h2
        omega
      · rw [if_neg hid] at h; cases h

theorem matchKeywordName_bounds (kw : List Char) (pos : Nat) (s : List Char) (ns ne : Nat)
    (h : matchKeywordName kw pos s = some (ns, ne)) :
    pos ≤ ns ∧ ns < ne ∧ ne ≤ pos + s.length := by
  unfold matchKeywordName at h
  by_cases hl : leadsWith kw s = true
  · rw [if_pos hl] at h
    have hb := matchNameTail_bounds _ _ _ _ h
    have hlen := leadsWith_length kw s hl
    have hd : (s.drop kw.length).length = s.length - kw.length :=
      List.length_drop _ _
    omega
  · rw [if_neg hl] at h; cases h

theorem matchAbstractContract_bounds (pos : Nat) (s : List Char) (ns ne : Nat)
    (h : matchAbstractContract pos s = some (ns, ne)) :
    pos ≤ ns ∧ ns < ne ∧ ne ≤ pos + s.length := by
  unfold matchAbstractContract at h
  by_cases hl : leadsWith abstractKw s = true
  · rw [if_pos hl] at h
    cases hdrop : s.drop 8 with
    | nil => rw [hdrop] at h; simp [matchAbstractAux] at h
    | cons c cs =>
      rw [hdrop] at h
      simp only [matchAbstractAux] at h
      by_cases hws : isWsB c = true
      · rw [if_pos hws] at h
        have hb := matchKeywordName_bounds _ _ _ _ _ h
        have h8 : (8 : Nat) ≤ s.length := by
          have hh := leadsWith_length abstractKw s hl
          simpa [abstractKw] using hh
        have hd8 : (s.drop 8).length = s.length - 8 := List.length_drop _ _
        rw [hdrop] at hd8
        simp only [List.length_cons] at hd8
        have hw2 := dropWs_le cs
        have hdcs : (cs.drop (dropWs cs)).length = cs.length - dropWs cs :=
          List.length_drop _ _
        omega
      · rw [if_neg hws] at h; cases h
  · rw [if_neg hl] at h; cases h

theorem reMatchFor_bounds (kind : ContractKind) (s : List Char) (s₀ e₀ : Nat)
    (h : reMatchFor kind s = some (s₀, e₀)) :
    s₀ < e₀ ∧ e₀ ≤ s.length := by
  have hws := dropWs_le s
  have hdl : (s.drop (dropWs s)).length = s.length - dropWs s := List.length_drop _ _
  cases kind with
  | contract =>
    unfold reMatchFor contractReMatch at h
    cases habs : matchAbstractContract (dropWs s) (s.drop (dropWs s)) with
    | some v =>
      obtain ⟨vs, ve⟩ := v
      rw [habs] at h
      simp only [Option.orElse] at h
      simp only [Option.some.injEq, Prod.mk.injEq] at h
      obtain ⟨h1, h2⟩ := h
      subst h1
      subst h2
      have hb := matchAbstractContract_bounds _ _ _ _ habs
      omega
    | none =>
      rw [habs] at h
      simp only [Option.orElse] at h
      have hb := matchKeywordName_bounds _ _ _ _ _ h
      omega
  | interface =>
    unfold reMatchFor interfaceReMatch at h
    have hb := matchKeywordName_bounds _ _ _ _ _ h
    omega
  | library =>
    unfold reMatchFor libraryReMatch at h
    have hb := matchKeywordName_bounds _ _ _ _ _ h
    omega

/-- C7: whenever the declaration's raw source slice matches its kind's
pattern, `_parse_name_location` returns absolute offsets — the declaration's
`byte_location` start plus the match's offsets within the slice — and the
returned name span lies wholly inside the declaration's byte location
`[a, a + length of slice)`. -/
theorem parse_name_location_contained (kind : ContractKind) (a : Nat) (src : List Char)
    (ns ne : Nat) (h : parseNameLocation kind a src = some (ns, ne)) :
    (∃ s₀ e₀, reMatchFor kind src = some (s₀, e₀) ∧ ns = a + s₀ ∧ ne = a + e₀) ∧
      a ≤ ns ∧ ns < ne ∧ ne ≤ a + src.length := by
  unfold parseNameLocation at h
  cases hm : reMatchFor kind src with
  | none => rw [hm] at h; cases h
  | some r =>
    obtain ⟨s₀, e₀⟩ := r
    rw [hm] at h
    simp only [Option.some.injEq, Prod.mk.injEq] at h
    obtain ⟨h1, h2⟩ := h
    subst h1
    subst h2
    have hb := reMatchFor_bounds kind src s₀ e₀ hm
    refine ⟨⟨s₀, e₀, rfl, rfl, rfl⟩, by omega, by omega, by omega⟩

/-- Witness for C7 at the slice `library L;` with byte location starting
at offset 10: the located name span is `[18, 19)`. -/
theorem parse_name_location_contained_witness :
    (∃ s₀ e₀, reMatchFor ContractKind.library
        ['l', 'i', 'b', 'r', 'a', 'r', 'y', ' ', 'L', ';'] = some (s₀, e₀) ∧
        18 = 10 + s₀ ∧ 19 = 10 + e₀) ∧
      10 ≤ 18 ∧ 18 < 19 ∧
      19 ≤ 10 + (['l', 'i', 'b', 'r', 'a', 'r', 'y', ' ', 'L', ';'] : List Char).length :=
  parse_name_location_contained ContractKind.library 10
    ['l', 'i', 'b', 'r', 'a', 'r', 'y', ' ', 'L', ';'] 18 19 (by decide)

/-- C8: for each of the three declaration kinds, `_parse_name_location`
returns a span exactly when the raw source slice matches the kind's fixed
leading pattern (optional whitespace, for contracts an optional `abstract`,
the kind's keyword, whitespace, then an identifier); when the slice does not
match, the `assert match` fails fatally and no span is returned. -/
theorem parse_name_location_matches_keyword_pattern :
    ∀ (kind : ContractKind) (a : Nat) (src : List Char),
      (parseNameLocation kind a src).isSome = true ↔ KeywordPattern kind src := by
  intro kind a src
  have hsame : (parseNameLocation kind a src).isSome = (reMatchFor kind src).isSome := by
    unfold parseNameLocation
    cases reMatchFor kind src with
    | none => rfl
    | some r =>
      obtain ⟨s₀, e₀⟩ := r
      rfl
  rw [hsame]
  exact reMatchFor_isSome kind src

/-- C5: `__iter__` yields the node itself first, and the yielded sequence
visits, counted with multiplicity, exactly the nodes of the subtree — for
`ContractDefinition.__iter__` over its owned-children field lists and for
`Switch.__iter__` over its scrutinee and cases.  (Being a pure function of
the node, a fresh call re-walks from scratch and mutates nothing.) -/
theorem iteration_preorder_complete :
    ∀ (selfc : Nat) (c : ContractIterNode) (selfs : Nat) (s : SwitchIterNode),
      (iterContract selfc c).head? = some selfc ∧
      (iterContract selfc c : Multiset Nat) = contractNodes selfc c ∧
      (iterSwitch selfs s).head? = some selfs ∧
      (iterSwitch selfs s : Multiset Nat) = switchNodes selfs s := by
  intro selfc c selfs s
  refine ⟨rfl, ?_, rfl, ?_⟩
  · rw [iterContract, contractNodes, ← Multiset.cons_coe]
    congr 1
    simp only [← Multiset.coe_add, ← iterForest_nodes]
  · rw [iterSwitch, switchNodes, ← Multiset.cons_coe]
    congr 1
    rw [← iterTree_nodes, ← iterForest_nodes, Multiset.coe_add]

/-! ## Protocol theorems (claims C1, C3, C4, C6, C9, C10) -/

theorem destroyGo_cons_mem (x b : Nat) (bs : List Nat) (st : Store) (bc : ContractState)
    (h : st b = some bc) (hx : x ∈ bc.childContracts) :
    destroyGo x (b :: bs) st =
      destroyGo x bs (updStore st b { bc with childContracts := bc.childContracts.erase x }) := by
  simp [destroyGo, h, hx]

theorem resolveAllIds_some (st : Store) : ∀ l : List Nat,
    (∀ i ∈ l, (st i).isSome = true) → ∃ r, resolveAllIds st l = some r := by
  intro l
  induction l with
  | nil => intro _; exact ⟨[], rfl⟩
  | cons a t ih =>
    intro h
    obtain ⟨b, hb⟩ := Option.isSome_iff_exists.mp (h a (by simp))
    obtain ⟨r, hr⟩ := ih (fun i hi => h i (by simp [hi]))
    exact ⟨b :: r, by simp [resolveAllIds, hb, hr]⟩

/-- C1: after `run_post_process` has fired every queued contract callback
over a freshly constructed unit (`order` lists the contracts in registration
order, child sets start empty, every specifier target resolves, and solc
guarantees distinct ids and distinct direct bases), a contract `C` directly
inherits from `B` — `B`'s id is among `C`'s resolved specifier targets —
exactly when `B`'s `child_contracts` contains `C`; and after any subsequent
sequence of invalidations, `B`'s `child_contracts` contains `C` exactly when
`C` has not been destroyed.  The resolver queue discipline is modelled from
the spec. -/
theorem inheritance_bidirectional_invariant (st₀ : Store) (order : List Nat)
    (Hdom : ∀ i ∈ order, (st₀ i).isSome = true)
    (Hout : ∀ i, i ∉ order → st₀ i = none)
    (Hempty : ∀ i, childSet st₀ i = [])
    (Hres : ∀ i C, st₀ i = some C → ∀ b ∈ C.baseIds, (st₀ b).isSome = true)
    (Hnodupb : ∀ i C, st₀ i = some C → C.baseIds.Nodup) :
    ∃ st₁, runPP order st₀ = some (st₁, order.map (fun i => (i, baseIdsAt st₀ i))) ∧
      (∀ iB iC B C, st₁ iB = some B → st₁ iC = some C →
        (iB ∈ C.baseIds ↔ iC ∈ childSet st₁ iB)) ∧
      (∀ ds, ds.Nodup → (∀ d ∈ ds, d ∈ order) →
        ∃ st₂,
          runInvalidations (order.map (fun i => (i, baseIdsAt st₀ i))) ds st₁ = some st₂ ∧
          ∀ iB iC B C, st₂ iB = some B → st₂ iC = some C → iB ∈ C.baseIds →
            (iC ∈ childSet st₂ iB ↔ iC ∉ ds)) := by
  have hinv0 : PPInvariant st₀ [] st₀ := by
    refine ⟨sameShape_refl st₀, ?_, ?_⟩
    · intro i y
      simp [Hempty i]
    · intro i
      rw [Hempty i]
      exact List.nodup_nil
  obtain ⟨st₁, hrun, hinv₁⟩ := runPP_sound st₀ Hres order [] st₀ Hdom hinv0
  rw [List.nil_append] at hinv₁
  obtain ⟨hshape₁, hmem₁, hnd₁⟩ := hinv₁
  refine ⟨st₁, hrun, ?_, ?_⟩
  · intro iB iC B C hB hC
    obtain ⟨C₀, hC₀, hbeq⟩ := sameShape_baseIds hshape₁ iC C hC
    rw [hmem₁ iB iC]
    constructor
    · intro hmemB
      refine ⟨C₀, hC₀, by rw [hbeq]; exact hmemB, ?_⟩
      by_contra hnot
      rw [Hout iC hnot] at hC₀
      cases hC₀
    · rintro ⟨C', hC', hBc, -⟩
      rw [hC₀] at hC'
      have hCeq : C' = C₀ := by
        injection hC' with h
        exact h.symm
      rw [← hbeq, ← hCeq]
      exact hBc
  · intro ds hndds hdsin
    have hdinv0 : DestroyInvariant st₀ order [] st₁ := by
      refine ⟨hshape₁, ?_, hnd₁⟩
      intro i y
      rw [hmem₁ i y]
      simp
    obtain ⟨st₂, hrun₂, hinv₂⟩ := runInv_sound st₀ order Hdom Hres Hnodupb ds [] st₁ hndds
      (fun d hd => ⟨hdsin d hd, by simp⟩) hdinv0
    rw [List.nil_append] at hinv₂
    obtain ⟨hshape₂, hmem₂, -⟩ := hinv₂
    refine ⟨st₂, hrun₂, ?_⟩
    intro iB iC B C hB hC hBC
    obtain ⟨C₀, hC₀, hbeq⟩ := sameShape_baseIds hshape₂ iC C hC
    rw [hmem₂ iB iC]
    constructor
    · rintro ⟨C', hC', hBc, hord, hdead⟩
      exact hdead
    · intro hnds
      refine ⟨C₀, hC₀, by rw [hbeq]; exact hBC, ?_, hnds⟩
      by_contra hnot
      rw [Hout iC hnot] at hC₀
      cases hC₀

/-- Witness for C1 on the two-contract unit `B` (id 1) and `C is B` (id 2),
followed by the invalidation of `C`. -/
theorem inheritance_bidirectional_invariant_witness :
    ∃ st₁, runPP [1, 2] exStore =
        some (st₁, [1, 2].map (fun i => (i, baseIdsAt exStore i))) ∧
      (∀ iB iC B C, st₁ iB = some B → st₁ iC = some C →
        (iB ∈ C.baseIds ↔ iC ∈ childSet st₁ iB)) ∧
      (∀ ds, ds.Nodup → (∀ d ∈ ds, d ∈ [1, 2]) →
        ∃ st₂,
          runInvalidations ([1, 2].map (fun i => (i, baseIdsAt exStore i))) ds st₁ =
            some st₂ ∧
          ∀ iB iC B C, st₂ iB = some B → st₂ iC = some C → iB ∈ C.baseIds →
            (iC ∈ childSet st₂ iB ↔ iC ∉ ds)) := by
  refine inheritance_bidirectional_invariant exStore [1, 2] (by decide) ?_ ?_ ?_ ?_
  · intro i hi
    have h1 : i ≠ 1 := fun he => hi (by simp [he])
    have h2 : i ≠ 2 := fun he => hi (by simp [he])
    simp [exStore, h1, h2]
  · intro i
    by_cases h1 : i = 1
    · subst h1; rfl
    · by_cases h2 : i = 2
      · subst h2; rfl
      · simp [childSet, exStore, h1, h2]
  · intro i C h b hb
    by_cases h1 : i = 1
    · subst h1
      simp [exStore] at h
      subst h
      simp [exB] at hb
    · by_cases h2 : i = 2
      · subst h2
        simp [exStore, h1] at h
        subst h
        simp [exC] at hb
        subst hb
        decide
      · simp [exStore, h1, h2] at h
  · intro i C h
    by_cases h1 : i = 1
    · subst h1
      simp [exStore] at h
      subst h
      decide
    · by_cases h2 : i = 2
      · subst h2
        simp [exStore, h1] at h
        subst h
        decide
      · simp [exStore, h1, h2] at h

/-- C3: running the destroy callback with the base list recorded by the
post-process callback undoes exactly the child-set insertions that callback
made: the store returns to precisely its state from before the post-process
callback ran, so rebuilding after an invalidation is, for every other
contract's state, as if the contract had never been built.  The callback
registration protocol is modelled from the spec. -/
theorem destroy_undoes_post_process (x : Nat) : ∀ (bs : List Nat) (st : Store),
    bs.Nodup →
    (∀ b ∈ bs, ∃ bc, st b = some bc ∧ x ∉ bc.childContracts) →
    ppGo x bs st = some (ppStore x bs st, bs) ∧
      destroyGo x bs (ppStore x bs st) = some st := by
  intro bs
  induction bs with
  | nil => intro st _ _; exact ⟨rfl, rfl⟩
  | cons b bs ih =>
    intro st hnd hpres
    obtain ⟨bc, hbc, hx⟩ := hpres b (by simp)
    have hbn : b ∉ bs := (List.nodup_cons.mp hnd).1
    have hnd' := (List.nodup_cons.mp hnd).2
    have hdom : ∀ b' ∈ b :: bs, (st b').isSome = true := by
      intro b' hb'
      obtain ⟨bc', hbc', -⟩ := hpres b' hb'
      rw [hbc']
      rfl
    refine ⟨ppGo_eq x (b :: bs) st hdom, ?_⟩
    have haddu : addUnique bc.childContracts x = x :: bc.childContracts := by
      unfold addUnique
      rw [if_neg hx]
    have hadd : addChildTo st b x =
        updStore st b { bc with childContracts := x :: bc.childContracts } := by
      rw [addChildTo_eq_some st b x bc hbc, haddu]
    have hcomm := ppStore_updStore_comm x bs st b
      { bc with childContracts := x :: bc.childContracts } hbn
    have h1 : ppStore x (b :: bs) st =
        updStore (ppStore x bs st) b { bc with childContracts := x :: bc.childContracts } := by
      show ppStore x bs (addChildTo st b x) = _
      rw [hadd, hcomm]
    rw [h1, destroyGo_cons_mem x b bs _ { bc with childContracts := x :: bc.childContracts }
      (updStore_self _ _ _) (by simp)]
    have h2 : ({ bc with childContracts := x :: bc.childContracts} :
        ContractState).childContracts = x :: bc.childContracts := rfl
    rw [h2, List.erase_cons_head]
    have h3 : ({ { bc with childContracts := x :: bc.childContracts } with
        childContracts := bc.childContracts } : ContractState) = bc := rfl
    rw [h3, updStore_collapse,
      updStore_eq_self _ _ _ (by rw [ppStore_notin x bs st b hbn]; exact hbc)]
    exact (ih st hnd' (fun b' hb' => hpres b' (by simp [hb']))).2

/-- Witness for C3: post-processing `C` (id 2) against base `B` (id 1) and
then destroying it restores the example store exactly. -/
theorem destroy_undoes_post_process_witness :
    ppGo 2 [1] exStore = some (ppStore 2 [1] exStore, [1]) ∧
      destroyGo 2 [1] (ppStore 2 [1] exStore) = some exStore :=
  destroy_undoes_post_process 2 [1] exStore (by decide)
    (by
      intro b hb
      simp only [List.mem_singleton] at hb
      subst hb
      exact ⟨exB, rfl, by decide⟩)

/-- C4: the two resolver-run callbacks are the only post-construction
mutators and they touch nothing but the `child_contracts` reverse index: a
successful post-process add loop or destroy removal loop leaves every other
field of every contract in the store unchanged.  (Property accessors are
pure functions of the node in this embedding, mirroring the
`tuple`/`frozenset` snapshots the source returns.) -/
theorem post_construction_mutation_confined :
    (∀ (x : Nat) (bs : List Nat) (st st' : Store) (r : List Nat),
        ppGo x bs st = some (st', r) → sameShape st st') ∧
    (∀ (x : Nat) (bs : List Nat) (st st' : Store),
        destroyGo x bs st = some st' → sameShape st st') := by
  constructor
  · intro x bs
    induction bs with
    | nil =>
      intro st st' r h
      simp only [ppGo, Option.some.injEq, Prod.mk.injEq] at h
      rw [← h.1]
      exact sameShape_refl st
    | cons b bs ih =>
      intro st st' r h
      cases hb : st b with
      | none => simp [ppGo, hb] at h
      | some bc =>
        cases hrec : ppGo x bs (addChildTo st b x) with
        | none => simp [ppGo, hb, hrec] at h
        | some p =>
          obtain ⟨st₂, r₂⟩ := p
          simp only [ppGo, hb, hrec, Option.some.injEq, Prod.mk.injEq] at h
          rw [← h.1]
          exact sameShape_trans (addChildTo_shape st b x) (ih (addChildTo st b x) st₂ r₂ hrec)
  · intro x bs
    induction bs with
    | nil =>
      intro st st' h
      simp only [destroyGo, Option.some.injEq] at h
      rw [← h]
      exact sameShape_refl st
    | cons b bs ih =>
      intro st st' h
      cases hb : st b with
      | none => simp [destroyGo, hb] at h
      | some bc =>
        by_cases hx : x ∈ bc.childContracts
        · rw [destroyGo_cons_mem x b bs st bc hb hx] at h
          refine sameShape_trans ?_ (ih _ st' h)
          intro i
          by_cases hi : i = b
          · subst hi
            rw [updStore_self, hb]
            rfl
          · rw [updStore_other st b _ i hi]
        · rw [destroyGo_fail x b bs st bc hb hx] at h
          cases h

/-- Witness for C4: the add of `C` (id 2) into `B`'s child set and its
removal both preserve the shape of the example store. -/
theorem post_construction_mutation_confined_witness :
    (∃ st' r, ppGo 2 [1] exStore = some (st', r) ∧ sameShape exStore st') ∧
    (∃ st', destroyGo 2 [1] (addChildTo exStore 1 2) = some st' ∧
      sameShape (addChildTo exStore 1 2) st') :=
  ⟨⟨_, _, rfl, post_construction_mutation_confined.1 2 [1] exStore _ _ rfl⟩,
    ⟨_, rfl, post_construction_mutation_confined.2 2 [1] _ _ rfl⟩⟩

/-- C6: when every id of the precomputed linearization resolves and, as solc
guarantees, the linearization starts with the contract's own id, the
`linearized_base_contracts` accessor returns the resolved sequence with the
contract itself first — the re-hydration preserves the upstream
most-derived-first order.  `resolve_node` is modelled from the spec. -/
theorem linearized_base_contracts_self_first (st : Store) (iC : Nat) (c : ContractState)
    (hst : st iC = some c)
    (hhead : c.linearizedBaseContracts.head? = some iC)
    (hres : ∀ i ∈ c.linearizedBaseContracts, (st i).isSome = true) :
    ∃ rest, linearizedAccessor st c = some (c :: rest) := by
  unfold linearizedAccessor
  cases hl : c.linearizedBaseContracts with
  | nil => rw [hl] at hhead; cases hhead
  | cons a tl =>
    rw [hl] at hhead
    simp only [List.head?_cons, Option.some.injEq] at hhead
    subst hhead
    obtain ⟨r, hr⟩ := resolveAllIds_some st tl (fun i hi => hres i (by rw [hl]; simp [hi]))
    exact ⟨r, by simp [resolveAllIds, hst, hr]⟩

/-- Witness for C6 at `C` (id 2) with linearization `[2, 1]` in the example
store. -/
theorem linearized_base_contracts_self_first_witness :
    ∃ rest, linearizedAccessor exStore exC = some (exC :: rest) :=
  linearized_base_contracts_self_first exStore 2 exC (by decide) rfl (by decide)

/-- C9: `__destroy` walks the recorded base list with `set.remove`; when the
contract is present in every recorded base's child set (each set a
duplicate-free Python set, bases pairwise distinct) it never fails and
removes the contract from each set, and the moment it attempts a removal
from a set in which the contract is absent it raises (`KeyError`), aborting
the invalidation. -/
theorem destroy_remove_semantics :
    (∀ (x : Nat) (bs : List Nat) (st : Store),
        bs.Nodup →
        (∀ b ∈ bs, ∃ bc, st b = some bc ∧ x ∈ bc.childContracts ∧
          bc.childContracts.Nodup) →
        ∃ st', destroyGo x bs st = some st' ∧ ∀ b ∈ bs, x ∉ childSet st' b) ∧
    (∀ (x b : Nat) (pre post : List Nat) (st st₁ : Store) (bc : ContractState),
        destroyGo x pre st = some st₁ → st₁ b = some bc → x ∉ bc.childContracts →
        destroyGo x (pre ++ b :: post) st = none) := by
  constructor
  · intro x bs st hnd hpres
    obtain ⟨st', hrun, -, -, hon⟩ := destroyGo_success x bs st hnd
      (fun b hb => by
        obtain ⟨bc, h1, h2, -⟩ := hpres b hb
        exact ⟨bc, h1, h2⟩)
    refine ⟨st', hrun, ?_⟩
    intro b hb
    obtain ⟨bc, hbc, hx, hnodup⟩ := hpres b hb
    rw [childSet_eq st' b _ (hon b hb bc hbc)]
    intro hmem
    exact absurd ((List.Nodup.mem_erase_iff hnodup).mp hmem).1 (by simp)
  · intro x b pre post st st₁ bc hpre hb hx
    rw [destroyGo_append x pre (b :: post) st, hpre]
    show destroyGo x (b :: post) st₁ = none
    exact destroyGo_fail x b post st₁ bc hb hx

/-- Witness for C9: removing `C` (id 2) succeeds after the add, and the very
first removal fails on the pristine store where `B`'s child set is empty. -/
theorem destroy_remove_semantics_witness :
    (∃ st', destroyGo 2 [1] (addChildTo exStore 1 2) = some st' ∧
        ∀ b ∈ [1], 2 ∉ childSet st' b) ∧
    destroyGo 2 ([] ++ 1 :: []) exStore = none :=
  ⟨destroy_remove_semantics.1 2 [1] (addChildTo exStore 1 2) (by decide)
      (by
        intro b hb
        simp only [List.mem_singleton] at hb
        subst hb
        exact ⟨{ exB with childContracts := [2] }, rfl, by decide, by decide⟩),
    destroy_remove_semantics.2 2 1 [] [] exStore exStore exB rfl rfl (by decide)⟩

/-- C10: when a contract's specifiers resolve to the same base twice, the
post-process callback still records the base once per specifier while the
`set`-add keeps a single copy in the base's child set; the destroy callback
then attempts one removal per recorded occurrence, so the second removal
raises even on a first, correctly ordered invalidation. -/
theorem duplicate_base_destroy_error (x b : Nat) (pre mid post : List Nat) (st : Store)
    (hnd : (pre ++ b :: mid).Nodup)
    (hpres : ∀ b' ∈ pre ++ (b :: (mid ++ (b :: post))),
        ∃ bc, st b' = some bc ∧ x ∉ bc.childContracts ∧ bc.childContracts.Nodup) :
    ∃ st₁, ppGo x (pre ++ (b :: (mid ++ (b :: post)))) st =
        some (st₁, pre ++ (b :: (mid ++ (b :: post)))) ∧
      x ∈ childSet st₁ b ∧ (childSet st₁ b).count x = 1 ∧
      destroyGo x (pre ++ (b :: (mid ++ (b :: post)))) st₁ = none := by
  have hdom : ∀ b' ∈ pre ++ (b :: (mid ++ (b :: post))), (st b').isSome = true := by
    intro b' hb'
    obtain ⟨bc, hbc, -, -⟩ := hpres b' hb'
    rw [hbc]
    rfl
  have hpp := ppGo_eq x (pre ++ (b :: (mid ++ (b :: post)))) st hdom
  set σ := ppStore x (pre ++ (b :: (mid ++ (b :: post)))) st with hσ
  have hbmem : b ∈ pre ++ (b :: (mid ++ (b :: post))) := by simp
  have hxmem : x ∈ childSet σ b := by
    rw [hσ, mem_childSet_ppStore x _ st b x hdom]
    exact Or.inr ⟨rfl, hbmem⟩
  have hnodup₁ : (childSet σ b).Nodup := by
    obtain ⟨bc, hbc, -, hnodup⟩ := hpres b hbmem
    rw [hσ]
    apply nodup_childSet_ppStore
    rw [childSet_eq st b bc hbc]
    exact hnodup
  refine ⟨σ, hpp, hxmem, List.count_eq_one_of_mem hnodup₁ hxmem, ?_⟩
  have hsplit : pre ++ (b :: (mid ++ (b :: post))) = (pre ++ b :: mid) ++ (b :: post) := by
    simp
  rw [hsplit, destroyGo_append]
  have hpres₁ : ∀ b' ∈ pre ++ b :: mid,
      ∃ bc₁, σ b' = some bc₁ ∧ x ∈ bc₁.childContracts := by
    intro b' hb'
    have hb'bs : b' ∈ pre ++ (b :: (mid ++ (b :: post))) := by
      rw [hsplit]
      exact List.mem_append.mpr (Or.inl hb')
    have hiss : (σ b').isSome = true := by
      rw [hσ, ppStore_isSome]
      exact hdom b' hb'bs
    obtain ⟨bc₁, hbc₁⟩ := Option.isSome_iff_exists.mp hiss
    refine ⟨bc₁, hbc₁, ?_⟩
    have hm := (mem_childSet_ppStore x _ st b' x hdom).mpr (Or.inr ⟨rfl, hb'bs⟩)
    rw [← hσ, childSet_eq σ b' bc₁ hbc₁] at hm
    exact hm
  obtain ⟨st₂, hd₁, -, -, hon₂⟩ :=
    destroyGo_success x (pre ++ b :: mid) σ hnd hpres₁
  rw [hd₁]
  show destroyGo x (b :: post) st₂ = none
  obtain ⟨bc₁, hbc₁, hx₁⟩ := hpres₁ b (by simp)
  have hst₂b : st₂ b = some { bc₁ with childContracts := bc₁.childContracts.erase x } :=
    hon₂ b (by simp) bc₁ hbc₁
  have hnodupb1 : bc₁.childContracts.Nodup := by
    rw [← childSet_eq σ b bc₁ hbc₁]
    exact hnodup₁
  apply destroyGo_fail x b post st₂ _ hst₂b
  intro hmem
  exact absurd ((List.Nodup.mem_erase_iff hnodupb1).mp hmem).1 (by simp)

/-- Witness for C10: a contract (id 2) whose specifier list resolves to base
1 twice; the first invalidation's destroy callback fails. -/
theorem duplicate_base_destroy_error_witness :
    ∃ st₁, ppGo 2 ([] ++ (1 :: ([] ++ (1 :: [])))) exStore =
        some (st₁, [] ++ (1 :: ([] ++ (1 :: [])))) ∧
      2 ∈ childSet st₁ 1 ∧ (childSet st₁ 1).count 2 = 1 ∧
      destroyGo 2 ([] ++ (1 :: ([] ++ (1 :: [])))) st₁ = none :=
  duplicate_base_destroy_error 2 1 [] [] [] exStore (by decide)
    (by
      intro b' hb'
      have hb1 : b' = 1 := by simpa using hb'
      subst hb1
      exact ⟨exB, rfl, by decide, by decide⟩)

end Woke
